import Mathlib

/-!
Verification of the curve-fitting core of the `thInk` repository.

The embedded code lives in `src/math/fit_spline.rs` (segmentation, smoothing,
orchestration) and `src/math/fit_bez.rs` (least-squares cubic Bezier fitting),
over the data type `BezierCurve` of `src/components/shapes/bezier.rs`.

Modelling conventions, used throughout:

* `f64` coordinates are modelled by `ℚ`, i.e. floating-point arithmetic is
  idealized as exact arithmetic.  Every concrete input appearing below keeps
  all the arithmetic exactly representable.
* `f64::sqrt` is modelled by `sqrtQ`, which is exact whenever the radicand is
  the square of a rational (which holds at `0`, at every concrete input used
  below, and in particular wherever a theorem depends on the numeric value of
  a square root).  Theorems that hold for *all* comparison outcomes (the
  segmentation invariants) do not depend on this.
* an `f64` computation that divides `0.0 / 0.0` produces `NaN`, which then
  propagates through every subsequent arithmetic operation; we model a
  NaN-producing computation by `Option`, `none` meaning "the result's
  coordinates are NaN / undefined".
* `nalgebra`'s SVD-based `pseudo_inverse` is external library code that has no
  exact rational counterpart; it is modelled by an abstract parameter
  `pinv : Mat4 → Option Mat4` (`none` = the `Err` case of `pseudo_inverse`).
  `try_inverse` (LU) succeeds exactly on invertible matrices in exact
  arithmetic and is embedded accordingly.
-/

/-- 2-D vector of coordinates, embedding `nalgebra::Vector2<f64>` with exact
rational coordinates. -/
@[ext]
structure Vec2 where
  x : ℚ
  y : ℚ
deriving DecidableEq, Inhabited, Repr

instance : Add Vec2 := ⟨fun a b => ⟨a.x + b.x, a.y + b.y⟩⟩

instance : Sub Vec2 := ⟨fun a b => ⟨a.x - b.x, a.y - b.y⟩⟩

instance : SMul ℚ Vec2 := ⟨fun q v => ⟨q * v.x, q * v.y⟩⟩

@[simp]
theorem Vec2.add_x (a b : Vec2) : (a + b).x = a.x + b.x := rfl

@[simp]
theorem Vec2.add_y (a b : Vec2) : (a + b).y = a.y + b.y := rfl

@[simp]
theorem Vec2.sub_x (a b : Vec2) : (a - b).x = a.x - b.x := rfl

@[simp]
theorem Vec2.sub_y (a b : Vec2) : (a - b).y = a.y - b.y := rfl

@[simp]
theorem Vec2.smul_x (q : ℚ) (v : Vec2) : (q • v).x = q * v.x := rfl

@[simp]
theorem Vec2.smul_y (q : ℚ) (v : Vec2) : (q • v).y = q * v.y := rfl

/-- Embedding of `BezierCurve` from `src/components/shapes/bezier.rs`
(the Rust field `end` is a reserved word in Lean, hence `end_`). -/
@[ext]
structure BezierCurve where
  start : Vec2
  control1 : Vec2
  control2 : Vec2
  end_ : Vec2
deriving DecidableEq, Inhabited, Repr

/-- Rational square root: exact whenever the argument is the square of a
rational number (`sqrtQ (r * r) = r` for `0 ≤ r`, see `sqrtQ_of_sq`); this
models `f64::sqrt` on the inputs this development evaluates it at.  Arguments
that are not perfect rational squares (which no theorem below depends on)
are mapped to `0`. -/
def sqrtQ (q : ℚ) : ℚ :=
  let n := Nat.sqrt q.num.toNat
  let d := Nat.sqrt q.den
  if n * n = q.num.toNat ∧ d * d = q.den then (n : ℚ) / (d : ℚ) else 0

theorem sqrtQ_of_sq (r : ℚ) (h : 0 ≤ r) : sqrtQ (r * r) = r := by
  have hnum : (r * r).num = r.num * r.num := Rat.mul_self_num r
  have hden : (r * r).den = r.den * r.den := Rat.mul_self_den r
  have hn0 : 0 ≤ r.num := Rat.num_nonneg.mpr h
  obtain ⟨a, ha⟩ : ∃ a : ℕ, r.num = (a : ℤ) := ⟨r.num.toNat, (Int.toNat_of_nonneg hn0).symm⟩
  have hnumT : (r * r).num.toNat = a * a := by
    rw [hnum, ha]
    exact_mod_cast Int.toNat_natCast (a * a)
  unfold sqrtQ
  rw [hnumT, hden]
  have h1 : Nat.sqrt (a * a) = a := by
    rw [← pow_two]
    exact Nat.sqrt_eq' _
  have h2 : Nat.sqrt (r.den * r.den) = r.den := by
    rw [← pow_two]
    exact Nat.sqrt_eq' _
  simp only [h1, h2, and_self, if_pos, true_and]
  have key : ((a : ℕ) : ℚ) = ((r.num : ℤ) : ℚ) := by
    rw [ha]
    push_cast
    rfl
  rw [key]
  exact Rat.num_div_den r

/-- Euclidean distance, embedding `nalgebra`'s `metric_distance` and the
explicit `((p1.x - p2.x).powi(2) + (p1.y - p2.y).powi(2)).sqrt()` of
`normalized_path_lengths`. -/
def metric_distance (p q : Vec2) : ℚ :=
  sqrtQ ((p.x - q.x) ^ 2 + (p.y - q.y) ^ 2)

theorem metric_distance_eval (p q : Vec2) (r : ℚ) (h0 : 0 ≤ r)
    (h : (p.x - q.x) ^ 2 + (p.y - q.y) ^ 2 = r * r) : metric_distance p q = r := by
  rw [metric_distance, h]
  exact sqrtQ_of_sq r h0

@[simp]
theorem metric_distance_self (p : Vec2) : metric_distance p p = 0 := by
  have := metric_distance_eval p p 0 le_rfl (by ring)
  simpa using this

/-- Loop state of the segmentation scan in `create_bezier_spline`
(`src/math/fit_spline.rs`, lines 8–20): the accumulated runs `spline_parts`,
the anchor index `last_vec_i` and the anchor point `last_vec2`. -/
structure SegState where
  parts : List (List Vec2)
  lastIdx : ℕ
  lastPt : Vec2

/-- One iteration of the `for i in 1..points.len()` loop of
`create_bezier_spline`: if the distance from the anchor to `points[i]`
strictly exceeds `size`, push the run `points[last_vec_i..(i+1)]` and reset
the anchor to index `i`. -/
def segStep (points : List Vec2) (size : ℕ) (st : SegState) (i : ℕ) : SegState :=
  let v := points.getD i default
  if (size : ℚ) < metric_distance st.lastPt v then
    ⟨st.parts ++ [(points.drop st.lastIdx).take (i + 1 - st.lastIdx)], i, v⟩
  else
    st

/-- The whole scan `for i in 1..points.len()`, started from anchor
`points[0]` at index `0` with no runs accumulated. -/
def segScan (points : List Vec2) (size : ℕ) : SegState :=
  (List.range' 1 (points.length - 1)).foldl (segStep points size)
    ⟨[], 0, points.getD 0 default⟩

/-- The runs produced by the segmenter: the scan above followed by the final
push of `create_bezier_spline` — the whole input if no split occurred,
otherwise `points[last_vec_i..]`. -/
def spline_parts (points : List Vec2) (size : ℕ) : List (List Vec2) :=
  let st := segScan points size
  if st.parts.isEmpty then [points] else st.parts ++ [points.drop st.lastIdx]

/-- Concatenation of a run list that removes the duplicated shared boundary
point at each junction: every run after the first loses its head. -/
def joinRuns : List (List Vec2) → List Vec2
  | [] => []
  | r :: rs => r ++ (rs.map List.tail).flatten

/-- Embedding of `smooth_spline` (`src/math/fit_spline.rs`, lines 40–61).
First pass: the per-junction adjustments are computed from `windows(2)` of the
*original* curve list (`List.zipWith _ spline spline.tail`).  Second pass:
curve `i+1` receives adjustment `i` (`skip(1).zip(adjustments)`), adding the
start delta to `start` and the control1 delta to `control1`. -/
def smooth_spline (spline : List BezierCurve) : List BezierCurve :=
  if spline.length ≤ 1 then spline
  else
    let adjustments := List.zipWith
      (fun prev curr =>
        let prev_tangent := prev.end_ - prev.control2
        (curr.start - prev.end_, curr.start + prev_tangent - curr.control1))
      spline spline.tail
    match spline with
    | [] => []
    | c :: rest =>
      c :: List.zipWith
        (fun curve adj =>
          { curve with start := curve.start + adj.1, control1 := curve.control1 + adj.2 })
        rest adjustments

/-- The same two passes lifted to curves whose coordinates may be NaN
(`none`); a NaN coordinate in either member of a junction poisons the
adjusted curve, mirroring NaN propagation through `f64` arithmetic. -/
def smooth_splineO (spline : List (Option BezierCurve)) : List (Option BezierCurve) :=
  if spline.length ≤ 1 then spline
  else
    let adjustments := List.zipWith
      (fun prev curr =>
        match prev, curr with
        | some p, some c =>
            some (c.start - p.end_, c.start + (p.end_ - p.control2) - c.control1)
        | _, _ => none)
      spline spline.tail
    match spline with
    | [] => []
    | c :: rest =>
      c :: List.zipWith
        (fun curve adj =>
          match curve, adj with
          | some cv, some a =>
              some { cv with start := cv.start + a.1, control1 := cv.control1 + a.2 }
          | _, _ => none)
        rest adjustments

/-- 4×4 rational matrix, embedding `nalgebra::Matrix4<f64>`. -/
abbrev Mat4 := Matrix (Fin 4) (Fin 4) ℚ

/-- The fixed power-basis/Bernstein-basis change matrix `m()` of
`src/math/fit_bez.rs`, lines 74–82. -/
def mMat : Mat4 :=
  !![-1, 3, -3, 1;
      3, -6, 3, 0;
     -3, 3, 0, 0;
      1, 0, 0, 0]

/-- Explicit (adjugate-based) inverse; agrees with Mathlib's noncomputable
`Matrix.inv` (see `inv4_eq_inv`) and with what `nalgebra`'s LU inversion
computes on an invertible matrix in exact arithmetic. -/
def inv4 (a : Mat4) : Mat4 := a.det⁻¹ • a.adjugate

theorem inv4_eq_inv (a : Mat4) : inv4 a = a⁻¹ := by
  rw [Matrix.inv_def, Ring.inverse_eq_inv, inv4]

/-- Embedding of `nalgebra`'s `try_inverse`: in exact arithmetic, LU
inversion succeeds exactly on matrices with nonzero determinant. -/
def try_inverse (a : Mat4) : Option Mat4 :=
  if a.det ≠ 0 then some (inv4 a) else none

/-- The singularity threshold `EPSILON: f64 = 1e-10` of `solve_for_b`. -/
def solveEps : ℚ := 1 / 10 ^ 10

/-- Embedding of `solve_for_b` (`src/math/fit_bez.rs`, lines 21–41),
parameterized by the external SVD pseudo-inverse routine `pinv`
(`none` models `pseudo_inverse` returning `Err`):
if `|det| < 1e-10`, use the pseudo-inverse, falling back to the input matrix
itself when the pseudo-inverse fails; otherwise use the ordinary inverse,
falling back to the pseudo-inverse (and then to the input matrix) if
ordinary inversion fails. -/
def solve_for_b (pinv : Mat4 → Option Mat4) (a : Mat4) : Mat4 :=
  if |a.det| < solveEps then
    (pinv a).getD a
  else
    match try_inverse a with
    | some inv => inv
    | none => (pinv a).getD a

/-- Cumulative path lengths, tail recursion: entry `i ≥ 1` is entry `i-1`
plus the distance from point `i-1` to point `i`. -/
def plAux (prev : Vec2) (acc : ℚ) : List Vec2 → List ℚ
  | [] => []
  | q :: rest => (acc + metric_distance prev q) :: plAux q (acc + metric_distance prev q) rest

/-- The `path_length` vector of `normalized_path_lengths`
(`src/math/fit_bez.rs`, lines 119–128): `path_length[0] = 0`, then cumulative
distances.  (On an empty input the source indexes `path_length[0]` out of
bounds; every claim below restricts to nonempty runs.) -/
def path_lengths (points : List Vec2) : List ℚ :=
  match points with
  | [] => []
  | _ :: rest => 0 :: plAux (points.getD 0 default) 0 rest

/-- Embedding of `normalized_path_lengths` (`src/math/fit_bez.rs`, lines
118–138).  The source divides every entry by the *last* entry with no guard;
when the total length is zero this divides `0.0/0.0` and every entry becomes
NaN — modelled by `none`.  (Total length zero forces every entry to be zero,
because the cumulative entries are sums of nonnegative distances.) -/
def normalized_path_lengths (points : List Vec2) : Option (List ℚ) :=
  let pl := path_lengths points
  let total := pl.getLastD 0
  if total = 0 then none else some (pl.map (fun v => v / total))

/-- The parameter matrix `u` of `src/math/fit_bez.rs`, lines 84–97: row `i`
is `[t³, t², t, 1]` for `t = npls[i]`. -/
def uOf (npls : List ℚ) (n : ℕ) : Matrix (Fin n) (Fin 4) ℚ :=
  Matrix.of fun i j => (npls.getD i 0) ^ (3 - (j : ℕ))

/-- The coordinate column vector `x` (`src/math/fit_bez.rs`, lines 99–107). -/
def xMat (points : List Vec2) : Matrix (Fin points.length) (Fin 1) ℚ :=
  Matrix.of fun i _ => (points.getD i default).x

/-- The coordinate column vector `y` (`src/math/fit_bez.rs`, lines 109–116). -/
def yMat (points : List Vec2) : Matrix (Fin points.length) (Fin 1) ℚ :=
  Matrix.of fun i _ => (points.getD i default).y

/-- `min_v = m().try_inverse().expect(..)` of `best_fit`; `mMat` is
invertible (`mMat_det` below), so `expect` cannot panic and the value is the
exact inverse. -/
def min_v : Mat4 := inv4 mMat

/-- Embedding of `best_fit` (`src/math/fit_bez.rs`, lines 43–72):
`M⁻¹ · solve_for_b(UᵗU) · Uᵗ · [X Y]`, assembling the four control points
from the two solution columns.  A NaN parameterization (`none` from
`normalized_path_lengths`) propagates to the result. -/
def best_fit (pinv : Mat4 → Option Mat4) (points : List Vec2) : Option (Fin 4 → Vec2) :=
  (normalized_path_lengths points).map fun npls =>
    let u := uOf npls points.length
    let ut := u.transpose
    let a := ut * u
    let b := solve_for_b pinv a
    let c := min_v * b
    let d := c * ut
    let e := d * xMat points
    let f := d * yMat points
    fun i => ⟨e i 0, f i 0⟩

/-- Embedding of `fit_bezier_curve` (`src/math/fit_bez.rs`, lines 5–19):
package the four fitted points as a `BezierCurve`. -/
def fit_bezier_curve (pinv : Mat4 → Option Mat4) (points : List Vec2) : Option BezierCurve :=
  (best_fit pinv points).map fun p => ⟨p 0, p 1, p 2, p 3⟩

/-- Embedding of `create_bezier_spline` (`src/math/fit_spline.rs`, lines
7–38): segment, fit every run, and smooth when more than one curve
resulted. -/
def create_bezier_spline (pinv : Mat4 → Option Mat4) (points : List Vec2) (size : ℕ) :
    List (Option BezierCurve) :=
  let parts := spline_parts points size
  let spline := parts.map (fit_bezier_curve pinv)
  if 1 < spline.length then smooth_splineO spline else spline

/-- Scalar cubic Bezier evaluation in the Bernstein basis (glossary of the
specification); used to state what "a point sampled exactly on a known cubic
Bezier curve" means. -/
def cubicBezier (p0 p1 p2 p3 t : ℚ) : ℚ :=
  (1 - t) ^ 3 * p0 + 3 * t * (1 - t) ^ 2 * p1 + 3 * t ^ 2 * (1 - t) * p2 + t ^ 3 * p3

/-- Point of a cubic Bezier curve at parameter `t`. -/
def bezierPoint (c : BezierCurve) (t : ℚ) : Vec2 :=
  ⟨cubicBezier c.start.x c.control1.x c.control2.x c.end_.x t,
   cubicBezier c.start.y c.control1.y c.control2.y c.end_.y t⟩

/-- The four control points of a curve in fit order. -/
def ctrlVec (c : BezierCurve) : Fin 4 → Vec2 :=
  ![c.start, c.control1, c.control2, c.end_]

theorem zipWith_getElem? {α β γ : Type} (f : α → β → γ) :
    ∀ (as : List α) (bs : List β) (k : ℕ),
      (List.zipWith f as bs)[k]? = (as[k]?).bind fun a => (bs[k]?).map fun b => f a b
  | [], _, _ => by simp
  | _ :: _, [], _ => by simp
  | _ :: _, _ :: _, 0 => by simp
  | a :: as, b :: bs, k + 1 => by
    simp only [List.zipWith_cons_cons, List.getElem?_cons_succ]
    exact zipWith_getElem? f as bs k

theorem smooth_spline_length (l : List BezierCurve) : (smooth_spline l).length = l.length := by
  unfold smooth_spline
  rcases l with _ | ⟨c, rest⟩
  · simp
  · by_cases h : (c :: rest).length ≤ 1
    · rw [if_pos h]
    · rw [if_neg h]
      by_cases hr : rest = []
      · subst hr
        simp at h
      · simp only [List.tail_cons, List.length_cons, List.length_zipWith]
        omega

theorem smooth_spline_getD_zero (l : List BezierCurve) :
    (smooth_spline l).getD 0 default = l.getD 0 default := by
  unfold smooth_spline
  rcases l with _ | ⟨c, rest⟩
  · simp
  · by_cases h : (c :: rest).length ≤ 1
    · rw [if_pos h]
    · rw [if_neg h]
      simp

theorem smooth_spline_getD (l : List BezierCurve) (i : ℕ) (h0 : 0 < i) (hi : i < l.length) :
    (smooth_spline l).getD i default =
      { l.getD i default with
        start := (l.getD i default).start
          + ((l.getD i default).start - (l.getD (i - 1) default).end_),
        control1 := (l.getD i default).control1
          + ((l.getD i default).start
              + ((l.getD (i - 1) default).end_ - (l.getD (i - 1) default).control2)
              - (l.getD i default).control1) } := by
  have hlen : 1 < l.length := lt_of_le_of_lt h0 hi
  unfold smooth_spline
  rw [if_neg (by omega)]
  rcases l with _ | ⟨c, rest⟩
  · simp at hlen
  · obtain ⟨k, rfl⟩ : ∃ k, i = k + 1 := ⟨i - 1, by omega⟩
    have hk : k < rest.length := by
      simp only [List.length_cons] at hi
      omega
    simp only [List.tail_cons, List.getD_cons_succ, Nat.add_sub_cancel]
    rw [List.getD_eq_getElem?_getD, zipWith_getElem?]
    have hrest : rest[k]? = some (rest.getD k default) := by
      rw [List.getD_eq_getElem?_getD]
      cases hx : rest[k]? with
      | none => exact absurd (List.getElem?_eq_none_iff.mp hx) (by omega)
      | some v => rfl
    have hcons : (c :: rest)[k]? = some ((c :: rest).getD k default) := by
      rw [List.getD_eq_getElem?_getD]
      cases hx : (c :: rest)[k]? with
      | none =>
        exact absurd (List.getElem?_eq_none_iff.mp hx) (by simp; omega)
      | some v => rfl
    rw [zipWith_getElem?, hrest, hcons]
    simp [List.getD_cons_succ]

/-- Claim C2: for every curve list of length > 1, smoothing leaves `curve[0]`
unchanged and, for every `i > 0`, sets `curve[i].start` to
`2·original(curve[i].start) − original(curve[i-1].end)` and
`curve[i].control1` to
`original(curve[i].start) + (original(curve[i-1].end) − original(curve[i-1].control2))`,
every delta being computed from the original (pre-adjustment) values of the
immediate predecessor only — the right-hand sides mention only the input
list `l`, never the adjusted list. -/
theorem claim2_smoothing_formula (l : List BezierCurve) (hl : 1 < l.length)
    (i : ℕ) (h0 : 0 < i) (hi : i < l.length) :
    (smooth_spline l).getD 0 default = l.getD 0 default ∧
    ((smooth_spline l).getD i default).start
      = (2 : ℚ) • (l.getD i default).start - (l.getD (i - 1) default).end_ ∧
    ((smooth_spline l).getD i default).control1
      = (l.getD i default).start
        + ((l.getD (i - 1) default).end_ - (l.getD (i - 1) default).control2) := by
  refine ⟨smooth_spline_getD_zero l, ?_, ?_⟩
  · rw [smooth_spline_getD l i h0 hi]
    ext <;> simp <;> ring
  · rw [smooth_spline_getD l i h0 hi]
    ext <;> simp

/-- Two-curve list taken from the smoothing example of the specification. -/
def smoothPair : List BezierCurve :=
  [⟨⟨0, 0⟩, ⟨1, 1⟩, ⟨8, 8⟩, ⟨10, 10⟩⟩, ⟨⟨11, 11⟩, ⟨12, 12⟩, ⟨13, 13⟩, ⟨14, 14⟩⟩]

theorem claim2_witness :
    (smooth_spline smoothPair).getD 0 default = smoothPair.getD 0 default ∧
    ((smooth_spline smoothPair).getD 1 default).start
      = (2 : ℚ) • (smoothPair.getD 1 default).start - (smoothPair.getD 0 default).end_ ∧
    ((smooth_spline smoothPair).getD 1 default).control1
      = (smoothPair.getD 1 default).start
        + ((smoothPair.getD 0 default).end_ - (smoothPair.getD 0 default).control2) :=
  claim2_smoothing_formula smoothPair (by norm_num [smoothPair]) 1 (by norm_num)
    (by norm_num [smoothPair])

/-- Claim C6: smoothing is idempotent on an already-continuous joint — if
`current.start = previous.end` and
`current.control1 = current.start + (previous.end − previous.control2)`,
the enforcer leaves both curves unchanged (both computed deltas vanish). -/
theorem claim6_smoothing_idempotent (p c : BezierCurve)
    (h1 : c.start = p.end_)
    (h2 : c.control1 = c.start + (p.end_ - p.control2)) :
    smooth_spline [p, c] = [p, c] := by
  have hx1 := congrArg Vec2.x h1
  have hy1 := congrArg Vec2.y h1
  have hx2 := congrArg Vec2.x h2
  have hy2 := congrArg Vec2.y h2
  simp only [Vec2.add_x, Vec2.add_y, Vec2.sub_x, Vec2.sub_y] at hx1 hy1 hx2 hy2
  simp only [smooth_spline, List.length_cons, List.length_nil, List.tail_cons,
    List.zipWith_cons_cons, List.zipWith_nil_right, List.zipWith_nil_left]
  norm_num
  ext <;> simp <;> linarith

theorem claim6_witness :
    smooth_spline [⟨⟨0, 0⟩, ⟨1, 1⟩, ⟨8, 8⟩, ⟨10, 10⟩⟩, ⟨⟨10, 10⟩, ⟨12, 12⟩, ⟨13, 13⟩, ⟨14, 14⟩⟩]
      = [⟨⟨0, 0⟩, ⟨1, 1⟩, ⟨8, 8⟩, ⟨10, 10⟩⟩, ⟨⟨10, 10⟩, ⟨12, 12⟩, ⟨13, 13⟩, ⟨14, 14⟩⟩] :=
  claim6_smoothing_idempotent _ _ (by norm_num) (by ext <;> norm_num)

/-- Claim C7 (frame property): smoothing only ever writes the `start` and
`control1` fields of curves at index `i > 0` — the list length is preserved,
`curve[0]` is untouched, and `control2` and `end` of every adjusted curve are
unchanged. -/
theorem claim7_smoothing_frame (l : List BezierCurve) (i : ℕ) (h0 : 0 < i)
    (hi : i < l.length) :
    (smooth_spline l).length = l.length ∧
    (smooth_spline l).getD 0 default = l.getD 0 default ∧
    ((smooth_spline l).getD i default).control2 = (l.getD i default).control2 ∧
    ((smooth_spline l).getD i default).end_ = (l.getD i default).end_ := by
  refine ⟨smooth_spline_length l, smooth_spline_getD_zero l, ?_, ?_⟩ <;>
    rw [smooth_spline_getD l i h0 hi]

theorem claim7_witness :
    (smooth_spline smoothPair).length = smoothPair.length ∧
    (smooth_spline smoothPair).getD 0 default = smoothPair.getD 0 default ∧
    ((smooth_spline smoothPair).getD 1 default).control2
      = (smoothPair.getD 1 default).control2 ∧
    ((smooth_spline smoothPair).getD 1 default).end_ = (smoothPair.getD 1 default).end_ :=
  claim7_smoothing_frame smoothPair 1 (by norm_num) (by norm_num [smoothPair])

theorem plAux_replicate (p : Vec2) (acc : ℚ) :
    ∀ k : ℕ, plAux p acc (List.replicate k p) = List.replicate k acc
  | 0 => rfl
  | k + 1 => by
    simp only [List.replicate_succ, plAux, metric_distance_self, add_zero]
    rw [plAux_replicate p acc k]

theorem getLastD_replicate_zero : ∀ k : ℕ, ((0 : ℚ) :: List.replicate k 0).getLastD 0 = 0
  | 0 => rfl
  | k + 1 => by
    rw [List.replicate_succ, List.getLastD_cons]
    exact getLastD_replicate_zero k

/-- On a run of `k+1` copies of one point every pairwise distance is zero, so
the cumulative path length stays zero, the total is zero, and the unguarded
division `path_length[i] / path_length[last]` is `0.0 / 0.0 = NaN`. -/
theorem npl_replicate_none (p : Vec2) (k : ℕ) :
    normalized_path_lengths (List.replicate (k + 1) p) = none := by
  unfold normalized_path_lengths
  have hpl : path_lengths (List.replicate (k + 1) p) = 0 :: List.replicate k 0 := by
    rw [List.replicate_succ]
    unfold path_lengths
    simp [plAux_replicate]
  rw [hpl]
  have htot : (0 :: List.replicate k (0 : ℚ)).getLastD 0 = 0 := getLastD_replicate_zero k
  simp only [htot]
  simp

theorem fit_replicate_none (pinv : Mat4 → Option Mat4) (p : Vec2) (k : ℕ) :
    fit_bezier_curve pinv (List.replicate (k + 1) p) = none := by
  simp [fit_bezier_curve, best_fit, npl_replicate_none]

/-- Claim C1 (claimed: a run of N ≥ 2 identical points fits to the curve
with all four control points equal to that point and no NaN anywhere).
What the code actually does: `normalized_path_lengths` divides by the total
path length with no special case, so a coincident run divides `0.0/0.0` and
every control-point coordinate of the fitted curve is NaN (`none` in this
model) — the degenerate special case required by the specification does not
exist in the source. -/
theorem claim1_degenerate_run_is_nan (pinv : Mat4 → Option Mat4) (p : Vec2) (n : ℕ)
    (hn : 2 ≤ n) : fit_bezier_curve pinv (List.replicate n p) = none := by
  obtain ⟨k, rfl⟩ : ∃ k, n = k + 1 := ⟨n - 1, by omega⟩
  exact fit_replicate_none pinv p k

theorem claim1_witness :
    fit_bezier_curve (fun _ => none) (List.replicate 2 ⟨1, 2⟩) = none :=
  claim1_degenerate_run_is_nan (fun _ => none) ⟨1, 2⟩ 2 (by norm_num)

/-- Claim C4: `solve_for_b` is total and follows the documented fallback
chain.  If `|det| < 1e-10` it returns whatever the pseudo-inverse routine
produced, the input matrix itself when that routine fails; otherwise exact
LU inversion cannot fail and it returns the true two-sided inverse of the
normal-equations matrix. -/
theorem claim4_solve_for_b_policy (pinv : Mat4 → Option Mat4) (a : Mat4) :
    (|a.det| < solveEps → solve_for_b pinv a = (pinv a).getD a) ∧
    (|a.det| < solveEps → pinv a = none → solve_for_b pinv a = a) ∧
    (¬ |a.det| < solveEps →
      solve_for_b pinv a = inv4 a ∧ inv4 a * a = 1 ∧ a * inv4 a = 1) := by
  refine ⟨fun h => ?_, fun h hn => ?_, fun h => ?_⟩
  · rw [solve_for_b, if_pos h]
  · rw [solve_for_b, if_pos h, hn]
    rfl
  · have hdet : a.det ≠ 0 := by
      intro h0
      rw [h0] at h
      exact h (by norm_num [solveEps])
    have htry : try_inverse a = some (inv4 a) := by
      rw [try_inverse, if_pos hdet]
    refine ⟨?_, ?_, ?_⟩
    · rw [solve_for_b, if_neg h, htry]
    · rw [inv4_eq_inv]
      exact Matrix.nonsing_inv_mul a (Ne.isUnit hdet)
    · rw [inv4_eq_inv]
      exact Matrix.mul_nonsing_inv a (Ne.isUnit hdet)

theorem claim4_witness :
    solve_for_b (fun _ => none) (0 : Mat4) = 0 ∧
    solve_for_b (fun _ => none) (1 : Mat4) = inv4 1 := by
  constructor
  · exact (claim4_solve_for_b_policy (fun _ => none) 0).2.1
      (by rw [Matrix.det_zero ⟨(0 : Fin 4)⟩]; norm_num [solveEps]) rfl
  · exact ((claim4_solve_for_b_policy (fun _ => none) 1).2.2
      (by rw [Matrix.det_one]; norm_num [solveEps])).1

/-- Claim C8: on points (0,0),(0,50),(0,160),(0,170) with threshold 100 the
segmenter produces exactly the two runs
[[(0,0),(0,50),(0,160)], [(0,160),(0,170)]]: distances are measured from the
running anchor (50, then 160 — split —, then 10 from the new anchor), and a
strict excess closes the run inclusive of the current point. -/
theorem claim8_segmentation_example :
    spline_parts [⟨0, 0⟩, ⟨0, 50⟩, ⟨0, 160⟩, ⟨0, 170⟩] 100 =
      [[⟨0, 0⟩, ⟨0, 50⟩, ⟨0, 160⟩], [⟨0, 160⟩, ⟨0, 170⟩]] := by
  have h1 : metric_distance ⟨0, 0⟩ ⟨0, 50⟩ = 50 :=
    metric_distance_eval _ _ 50 (by norm_num) (by norm_num)
  have h2 : metric_distance ⟨0, 0⟩ ⟨0, 160⟩ = 160 :=
    metric_distance_eval _ _ 160 (by norm_num) (by norm_num)
  have h3 : metric_distance ⟨0, 160⟩ ⟨0, 170⟩ = 10 :=
    metric_distance_eval _ _ 10 (by norm_num) (by norm_num)
  norm_num [spline_parts, segScan, segStep, List.range', List.getD_cons_zero,
    List.getD_cons_succ, h1, h2, h3]

/-- Claim C5: on the two points (0,0),(0,101) with threshold 100 the scan
splits at index 1 and the final push then emits the single-point run
[(0,101)]; that run reaches `fit_bezier_curve`, whose arc-length
normalization divides `0.0/0.0` unguarded, so the fitted curve's coordinates
are NaN (`none`); and every single-point or all-coincident run (any
`replicate (n+1) p`) reaches the same unguarded division. -/
theorem claim5_single_point_run_nan :
    spline_parts [⟨0, 0⟩, ⟨0, 101⟩] 100 = [[⟨0, 0⟩, ⟨0, 101⟩], [⟨0, 101⟩]] ∧
    (∀ pinv : Mat4 → Option Mat4, fit_bezier_curve pinv [⟨0, 101⟩] = none) ∧
    (∀ (pinv : Mat4 → Option Mat4) (p : Vec2) (n : ℕ),
      fit_bezier_curve pinv (List.replicate (n + 1) p) = none) := by
  refine ⟨?_, fun pinv => ?_, fun pinv p n => fit_replicate_none pinv p n⟩
  · have h1 : metric_distance ⟨0, 0⟩ ⟨0, 101⟩ = 101 :=
      metric_distance_eval _ _ 101 (by norm_num) (by norm_num)
    norm_num [spline_parts, segScan, segStep, List.range', List.getD_cons_zero,
      List.getD_cons_succ, h1]
  · have : [(⟨0, 101⟩ : Vec2)] = List.replicate (0 + 1) ⟨0, 101⟩ := rfl
    rw [this]
    exact fit_replicate_none pinv _ 0

theorem spline_parts_ne_nil (points : List Vec2) (size : ℕ) :
    spline_parts points size ≠ [] := by
  unfold spline_parts
  by_cases h : (segScan points size).parts.isEmpty <;> simp [h]

theorem smooth_splineO_length (s : List (Option BezierCurve)) :
    (smooth_splineO s).length = s.length := by
  unfold smooth_splineO
  rcases s with _ | ⟨c, rest⟩
  · simp
  · by_cases h : (c :: rest).length ≤ 1
    · rw [if_pos h]
    · rw [if_neg h]
      by_cases hr : rest = []
      · subst hr
        simp at h
      · simp only [List.tail_cons, List.length_cons, List.length_zipWith]
        omega

/-- Claim C10: for at least two input points and a positive threshold,
`create_bezier_spline` returns at least one curve — the run list is never
empty (either the whole input is pushed as the single run, or the final run
is pushed after the scan), fitting maps runs to curves one-to-one, and
smoothing preserves the length. -/
theorem claim10_spline_nonempty (pinv : Mat4 → Option Mat4) (points : List Vec2)
    (size : ℕ) (hlen : 2 ≤ points.length) (hsize : 0 < size) :
    1 ≤ (create_bezier_spline pinv points size).length := by
  unfold create_bezier_spline
  have hparts : 1 ≤ (spline_parts points size).length :=
    List.length_pos.mpr (spline_parts_ne_nil points size)
  by_cases h : 1 < ((spline_parts points size).map (fit_bezier_curve pinv)).length
  · rw [if_pos h, smooth_splineO_length, List.length_map]
    exact hparts
  · rw [if_neg h, List.length_map]
    exact hparts

theorem claim10_witness :
    1 ≤ (create_bezier_spline (fun _ => none) [⟨0, 0⟩, ⟨1, 0⟩] 1).length :=
  claim10_spline_nonempty (fun _ => none) [⟨0, 0⟩, ⟨1, 0⟩] 1 (by norm_num) (by norm_num)

theorem getD_of_lt (l : List Vec2) (i : ℕ) (h : i < l.length) :
    l[i]? = some (l.getD i default) := by
  rw [List.getD_eq_getElem?_getD]
  cases hx : l[i]? with
  | none => exact absurd (List.getElem?_eq_none_iff.mp hx) (by omega)
  | some v => rfl

theorem joinRuns_singleton (r : List Vec2) : joinRuns [r] = r := by
  simp [joinRuns]

theorem joinRuns_concat (rs : List (List Vec2)) (x : List Vec2) (h : rs ≠ []) :
    joinRuns (rs ++ [x]) = joinRuns rs ++ x.tail := by
  rcases rs with _ | ⟨r, rs'⟩
  · exact absurd rfl h
  · simp [joinRuns, List.flatten_append, List.append_assoc]

/-- Invariant of the segmentation scan after the indices `1..=k` have been
processed: the anchor is a valid index not beyond `k`, the anchor point is
the point at the anchor index, the accumulated runs are nonempty contiguous
slices that chain at shared boundary points, their boundary-deduplicated
concatenation is exactly the prefix of the input up to and including the
anchor, and the last accumulated run ends at the anchor point. -/
def SegInv (points : List Vec2) (k : ℕ) (st : SegState) : Prop :=
  st.lastIdx ≤ k ∧
  st.lastIdx < points.length ∧
  st.lastPt = points.getD st.lastIdx default ∧
  (st.parts = [] → st.lastIdx = 0) ∧
  (st.parts ≠ [] → joinRuns st.parts = points.take (st.lastIdx + 1)) ∧
  (∀ last ∈ st.parts.getLast?, last.getLast? = some (points.getD st.lastIdx default)) ∧
  (∀ r ∈ st.parts, r ≠ []) ∧
  List.Chain' (fun r r' => r.getLast? = r'.head?) st.parts ∧
  (∀ r ∈ st.parts, ∃ a n, r = (points.drop a).take n)

theorem segInv_init (points : List Vec2) (h : points ≠ []) :
    SegInv points 0 ⟨[], 0, points.getD 0 default⟩ :=
  ⟨le_rfl, List.length_pos.mpr h, rfl, fun _ => rfl, fun hc => absurd rfl hc,
    by simp, by simp, List.chain'_nil, by simp⟩

theorem segInv_step (points : List Vec2) (size : ℕ) (k : ℕ) (st : SegState)
    (hinv : SegInv points k st) (hk : k + 1 < points.length) :
    SegInv points (k + 1) (segStep points size st (k + 1)) := by
  obtain ⟨h1, h2, h3, h4, h5, h6, h7, h8, h9⟩ := hinv
  show SegInv points (k + 1)
    (if (size : ℚ) < metric_distance st.lastPt (points.getD (k + 1) default) then
      (⟨st.parts ++ [(points.drop st.lastIdx).take (k + 1 + 1 - st.lastIdx)], k + 1,
        points.getD (k + 1) default⟩ : SegState)
    else st)
  by_cases hc : (size : ℚ) < metric_distance st.lastPt (points.getD (k + 1) default)
  · rw [if_pos hc]
    set newr := (points.drop st.lastIdx).take (k + 1 + 1 - st.lastIdx) with hnewr
    have hlen_drop : (points.drop st.lastIdx).length = points.length - st.lastIdx :=
      List.length_drop _ _
    have hlen_newr : newr.length = k + 2 - st.lastIdx := by
      rw [hnewr, List.length_take, hlen_drop]
      omega
    have hnewr_ne : newr ≠ [] := by
      intro habs
      have := congrArg List.length habs
      rw [hlen_newr] at this
      simp at this
      omega
    have hlast_newr : newr.getLast? = some (points.getD (k + 1) default) := by
      rw [List.getLast?_eq_getElem?, hlen_newr]
      have hidx : k + 2 - st.lastIdx - 1 = k + 1 - st.lastIdx := by omega
      rw [hidx, hnewr, List.getElem?_take, if_pos (by omega), List.getElem?_drop]
      have : st.lastIdx + (k + 1 - st.lastIdx) = k + 1 := by omega
      rw [this]
      exact getD_of_lt points (k + 1) hk
    have hhead_newr : newr.head? = some (points.getD st.lastIdx default) := by
      rw [hnewr, List.head?_eq_getElem?, List.getElem?_take, if_pos (by omega),
        List.getElem?_drop, Nat.add_zero]
      exact getD_of_lt points st.lastIdx h2
    refine ⟨le_rfl, hk, rfl, ?_, ?_, ?_, ?_, ?_, ?_⟩
    · intro habs
      simp at habs
    · intro _
      dsimp only
      by_cases hp : st.parts = []
      · rw [hp, List.nil_append, joinRuns_singleton, hnewr, h4 hp, List.drop_zero,
          Nat.sub_zero]
      · rw [joinRuns_concat st.parts newr hp, h5 hp, hnewr, ← List.drop_one,
          List.drop_take, List.drop_drop]
        have harith : k + 1 + 1 - st.lastIdx - 1 = k + 1 - st.lastIdx := by omega
        rw [harith, ← List.take_add]
        congr 1
        omega
    · intro last hlast
      rw [List.getLast?_concat] at hlast
      simp only [Option.mem_def, Option.some.injEq] at hlast
      rw [← hlast]
      exact hlast_newr
    · intro r hr
      rcases List.mem_append.mp hr with hr | hr
      · exact h7 r hr
      · simp only [List.mem_singleton] at hr
        rw [hr]
        exact hnewr_ne
    · refine List.chain'_append.mpr ⟨h8, List.chain'_singleton newr, ?_⟩
      intro x hx y hy
      simp only [List.head?_cons, Option.mem_def, Option.some.injEq] at hy
      rw [← hy, h6 x hx, hhead_newr]
    · intro r hr
      rcases List.mem_append.mp hr with hr | hr
      · exact h9 r hr
      · simp only [List.mem_singleton] at hr
        exact ⟨st.lastIdx, k + 1 + 1 - st.lastIdx, hr⟩
  · rw [if_neg hc]
    exact ⟨h1.trans (Nat.le_succ k), h2, h3, h4, h5, h6, h7, h8, h9⟩

theorem segScan_inv (points : List Vec2) (h : points ≠ []) (size : ℕ) :
    ∀ k, k ≤ points.length - 1 →
      SegInv points k
        ((List.range' 1 k).foldl (segStep points size) ⟨[], 0, points.getD 0 default⟩)
  | 0, _ => segInv_init points h
  | k + 1, hk => by
    have hlen : 1 ≤ points.length := List.length_pos.mpr h
    have hstep : k + 1 < points.length := by omega
    have hrec := segScan_inv points h size k (by omega)
    rw [List.range'_concat, List.foldl_append, List.foldl_cons, List.foldl_nil, one_mul,
      Nat.add_comm 1 k]
    exact segInv_step points size k _ hrec hstep

theorem spline_parts_of_nil (points : List Vec2) (size : ℕ)
    (h : (segScan points size).parts = []) : spline_parts points size = [points] := by
  show (if (segScan points size).parts.isEmpty then [points] else _) = [points]
  rw [h]
  simp

theorem spline_parts_of_ne (points : List Vec2) (size : ℕ)
    (h : (segScan points size).parts ≠ []) :
    spline_parts points size =
      (segScan points size).parts ++ [points.drop (segScan points size).lastIdx] := by
  show (if (segScan points size).parts.isEmpty then [points]
    else (segScan points size).parts ++ [points.drop (segScan points size).lastIdx]) = _
  rcases hx : (segScan points size).parts with _ | ⟨a, b⟩
  · exact absurd hx h
  · simp

/-- Claim C3: for every nonempty input and every positive threshold, the
runs produced by the segmenter are nonempty contiguous slices of the input,
adjacent runs share exactly one boundary point (the last point of each run
is the first point of the next), and concatenating all runs while dropping
the duplicated point at each shared boundary reproduces the input exactly. -/
theorem claim3_segmentation_coverage (points : List Vec2) (hne : points ≠ [])
    (size : ℕ) (hsize : 0 < size) :
    (∀ r ∈ spline_parts points size, r ≠ []) ∧
    (∀ r ∈ spline_parts points size, ∃ a n, r = (points.drop a).take n) ∧
    List.Chain' (fun r r' => r.getLast? = r'.head?) (spline_parts points size) ∧
    joinRuns (spline_parts points size) = points := by
  have hinv : SegInv points (points.length - 1) (segScan points size) :=
    segScan_inv points hne size (points.length - 1) le_rfl
  obtain ⟨h1, h2, h3, h4, h5, h6, h7, h8, h9⟩ := hinv
  by_cases hp : (segScan points size).parts = []
  · rw [spline_parts_of_nil points size hp]
    refine ⟨?_, ?_, List.chain'_singleton points, joinRuns_singleton points⟩
    · intro r hr
      simp only [List.mem_singleton] at hr
      rw [hr]
      exact hne
    · intro r hr
      simp only [List.mem_singleton] at hr
      exact ⟨0, points.length, by rw [hr, List.drop_zero, List.take_length]⟩
  · rw [spline_parts_of_ne points size hp]
    have hfin_ne : points.drop (segScan points size).lastIdx ≠ [] := by
      simp only [ne_eq, List.drop_eq_nil_iff, not_le]
      omega
    have hfin_head : (points.drop (segScan points size).lastIdx).head? =
        some (points.getD (segScan points size).lastIdx default) := by
      rw [List.head?_drop]
      exact getD_of_lt points _ h2
    refine ⟨?_, ?_, ?_, ?_⟩
    · intro r hr
      rcases List.mem_append.mp hr with hr | hr
      · exact h7 r hr
      · simp only [List.mem_singleton] at hr
        rw [hr]
        exact hfin_ne
    · intro r hr
      rcases List.mem_append.mp hr with hr | hr
      · exact h9 r hr
      · simp only [List.mem_singleton] at hr
        exact ⟨(segScan points size).lastIdx,
          (points.drop (segScan points size).lastIdx).length, by rw [hr, List.take_length]⟩
    · refine List.chain'_append.mpr ⟨h8, List.chain'_singleton _, ?_⟩
      intro x hx y hy
      simp only [List.head?_cons, Option.mem_def, Option.some.injEq] at hy
      rw [← hy, h6 x hx, hfin_head]
    · rw [joinRuns_concat _ _ hp, h5 hp, ← List.drop_one, List.drop_drop,
        List.take_append_drop]

theorem claim3_witness :
    (∀ r ∈ spline_parts [⟨0, 0⟩, ⟨3, 4⟩] 2, r ≠ []) ∧
    (∀ r ∈ spline_parts [⟨0, 0⟩, ⟨3, 4⟩] 2, ∃ a n,
      r = (([⟨0, 0⟩, ⟨3, 4⟩] : List Vec2).drop a).take n) ∧
    List.Chain' (fun r r' => r.getLast? = r'.head?) (spline_parts [⟨0, 0⟩, ⟨3, 4⟩] 2) ∧
    joinRuns (spline_parts [⟨0, 0⟩, ⟨3, 4⟩] 2) = [⟨0, 0⟩, ⟨3, 4⟩] :=
  claim3_segmentation_coverage [⟨0, 0⟩, ⟨3, 4⟩] (by simp) 2 (by norm_num)

/-- Leibniz expansion of a 4×4 determinant, by cofactors along the first
row. -/
theorem det4_expansion (a b c d e f g h i j k l m n o p : ℚ) :
    (!![a, b, c, d; e, f, g, h; i, j, k, l; m, n, o, p]).det =
      a * (f * (k * p - l * o) - g * (j * p - l * n) + h * (j * o - k * n))
      - b * (e * (k * p - l * o) - g * (i * p - l * m) + h * (i * o - k * m))
      + c * (e * (j * p - l * n) - f * (i * p - l * m) + h * (i * n - j * m))
      - d * (e * (j * o - k * n) - f * (i * o - k * m) + g * (i * n - j * m)) := by
  simp only [Matrix.det_succ_row_zero, Fin.sum_univ_succ, Finset.univ_unique,
    Finset.sum_singleton, Matrix.det_unique, Fin.default_eq_zero, Matrix.submatrix_apply,
    Fin.zero_succAbove, Fin.succ_succAbove_zero, Fin.succ_succAbove_succ,
    Matrix.cons_val_zero, Matrix.cons_val_succ, Fin.val_zero, Fin.val_succ,
    pow_succ, pow_zero, Matrix.of_apply, Matrix.cons_val', Matrix.empty_val',
    Matrix.cons_val_fin_one, Matrix.head_cons, Matrix.head_fin_const]
  ring

theorem mMat_det : mMat.det = 9 := by
  rw [mMat, det4_expansion]
  norm_num

theorem mMat_det_ne : mMat.det ≠ 0 := by
  rw [mMat_det]
  norm_num

/-- `m().try_inverse()` in `best_fit` cannot fail: `mMat` has determinant 9. -/
theorem try_inverse_mMat : try_inverse mMat = some (inv4 mMat) := by
  rw [try_inverse, if_pos mMat_det_ne]

theorem minv_mul_mMat : min_v * mMat = 1 := by
  rw [min_v, inv4_eq_inv]
  exact Matrix.nonsing_inv_mul mMat (Ne.isUnit mMat_det_ne)

theorem solve_for_b_nonsingular (pinv : Mat4 → Option Mat4) (a : Mat4)
    (h : ¬ |a.det| < solveEps) : solve_for_b pinv a = inv4 a ∧ a.det ≠ 0 := by
  have hdet : a.det ≠ 0 := by
    intro h0
    rw [h0] at h
    exact h (by norm_num [solveEps])
  refine ⟨?_, hdet⟩
  rw [solve_for_b, if_neg h, try_inverse, if_pos hdet]

/-- A cubic Bezier value in the Bernstein basis equals the power-basis row
`[t³, t², t, 1]` times `mMat` times the control values: `mMat` really is the
Bezier-to-power basis change used by `best_fit`. -/
theorem cubicBezier_sum (v : Fin 4 → ℚ) (t : ℚ) :
    cubicBezier (v 0) (v 1) (v 2) (v 3) t
      = ∑ j : Fin 4, t ^ (3 - (j : ℕ)) * (∑ k : Fin 4, mMat j k * v k) := by
  simp only [Fin.sum_univ_four, mMat, Matrix.of_apply, Matrix.cons_val', Matrix.cons_val_zero,
    Matrix.cons_val_one, Matrix.head_cons, Matrix.empty_val', Matrix.cons_val_fin_one,
    Matrix.head_fin_const, cubicBezier, Fin.isValue, Matrix.cons_val_two, Matrix.tail_cons,
    Matrix.cons_val_three]
  have h3 : ((3 : Fin 4) : ℕ) = 3 := rfl
  norm_num [h3]
  ring

/-- Exact normal-equations least squares applied to data lying in the column
space: `M⁻¹ (UᵗU)⁻¹ Uᵗ (U M P) = P` when `UᵗU` is invertible. -/
theorem lsq_reproduces {n : ℕ} (u : Matrix (Fin n) (Fin 4) ℚ)
    (P : Matrix (Fin 4) (Fin 1) ℚ) (hAdet : (u.transpose * u).det ≠ 0) :
    ((min_v * inv4 (u.transpose * u)) * u.transpose) * (u * (mMat * P)) = P := by
  have hinv : inv4 (u.transpose * u) * (u.transpose * u) = 1 := by
    rw [inv4_eq_inv]
    exact Matrix.nonsing_inv_mul _ (Ne.isUnit hAdet)
  have h1 : u.transpose * (u * (mMat * P)) = (u.transpose * u) * (mMat * P) :=
    (Matrix.mul_assoc _ _ _).symm
  simp only [Matrix.mul_assoc]
  rw [h1, ← Matrix.mul_assoc (inv4 (u.transpose * u)) (u.transpose * u) (mMat * P), hinv,
    Matrix.one_mul, ← Matrix.mul_assoc min_v mMat P, minv_mul_mMat, Matrix.one_mul]

/-- If the fitter's normalized arc-length parameters are exactly `ts`, the
input points lie exactly on the cubic `c` at those parameters, and the
normal-equations matrix passes the determinant test, then `best_fit`
recovers the four control points of `c` exactly. -/
theorem best_fit_reproduces (pinv : Mat4 → Option Mat4) (points : List Vec2)
    (ts : List ℚ) (c : BezierCurve)
    (hnpl : normalized_path_lengths points = some ts)
    (hsample : ∀ i, i < points.length → points.getD i default = bezierPoint c (ts.getD i 0))
    (hdet : ¬ |((uOf ts points.length).transpose * uOf ts points.length).det| < solveEps) :
    best_fit pinv points = some (ctrlVec c) := by
  obtain ⟨hb, hAdet⟩ := solve_for_b_nonsingular pinv _ hdet
  have hX : xMat points
      = uOf ts points.length * (mMat * Matrix.of fun k (_ : Fin 1) => (ctrlVec c k).x) := by
    ext i j
    have hj : j = 0 := Subsingleton.elim j 0
    subst hj
    show (points.getD i default).x = _
    rw [hsample i i.isLt]
    simp only [Matrix.mul_apply, uOf, Matrix.of_apply, bezierPoint]
    exact cubicBezier_sum (fun k => (ctrlVec c k).x) (ts.getD i 0)
  have hY : yMat points
      = uOf ts points.length * (mMat * Matrix.of fun k (_ : Fin 1) => (ctrlVec c k).y) := by
    ext i j
    have hj : j = 0 := Subsingleton.elim j 0
    subst hj
    show (points.getD i default).y = _
    rw [hsample i i.isLt]
    simp only [Matrix.mul_apply, uOf, Matrix.of_apply, bezierPoint]
    exact cubicBezier_sum (fun k => (ctrlVec c k).y) (ts.getD i 0)
  have hEx := lsq_reproduces (uOf ts points.length)
    (Matrix.of fun k (_ : Fin 1) => (ctrlVec c k).x) hAdet
  have hEy := lsq_reproduces (uOf ts points.length)
    (Matrix.of fun k (_ : Fin 1) => (ctrlVec c k).y) hAdet
  unfold best_fit
  rw [hnpl]
  simp only [Option.map_some', Option.some.injEq]
  simp only [hb, hX, hY, hEx, hEy]
  funext i
  exact Vec2.ext rfl rfl

/-- Points obtained by sampling the non-uniform-speed cubic `cCubic` below at
parameters 0, 1/3, 2/3, 1 (they also lie on the uniform line `cLine`). -/
def linePts : List Vec2 := [⟨0, 0⟩, ⟨7/9, 0⟩, ⟨20/9, 0⟩, ⟨3, 0⟩]

/-- Normalized arc-length parameters of `linePts`. -/
def lineTs : List ℚ := [0, 7/27, 20/27, 1]

/-- The uniform-speed segment from (0,0) to (3,0). -/
def cLine : BezierCurve := ⟨⟨0, 0⟩, ⟨1, 0⟩, ⟨2, 0⟩, ⟨3, 0⟩⟩

/-- A cubic tracing the same segment at non-uniform speed
(x(t) = 9t² − 6t³). -/
def cCubic : BezierCurve := ⟨⟨0, 0⟩, ⟨0, 0⟩, ⟨3, 0⟩, ⟨3, 0⟩⟩

/-- Equally spaced points on `cLine`. -/
def uniPts : List Vec2 := [⟨0, 0⟩, ⟨1, 0⟩, ⟨2, 0⟩, ⟨3, 0⟩]

/-- Normalized arc-length parameters of `uniPts`. -/
def uniTs : List ℚ := [0, 1/3, 2/3, 1]

theorem npl_linePts : normalized_path_lengths linePts = some lineTs := by
  have hd1 : metric_distance ⟨0, 0⟩ ⟨7/9, 0⟩ = 7/9 :=
    metric_distance_eval _ _ (7/9) (by norm_num) (by norm_num)
  have hd2 : metric_distance ⟨7/9, 0⟩ ⟨20/9, 0⟩ = 13/9 :=
    metric_distance_eval _ _ (13/9) (by norm_num) (by norm_num)
  have hd3 : metric_distance ⟨20/9, 0⟩ ⟨3, 0⟩ = 7/9 :=
    metric_distance_eval _ _ (7/9) (by norm_num) (by norm_num)
  norm_num [normalized_path_lengths, path_lengths, plAux, linePts, lineTs, hd1, hd2, hd3]

theorem npl_uniPts : normalized_path_lengths uniPts = some uniTs := by
  have hd1 : metric_distance ⟨0, 0⟩ ⟨1, 0⟩ = 1 :=
    metric_distance_eval _ _ 1 (by norm_num) (by norm_num)
  have hd2 : metric_distance ⟨1, 0⟩ ⟨2, 0⟩ = 1 :=
    metric_distance_eval _ _ 1 (by norm_num) (by norm_num)
  have hd3 : metric_distance ⟨2, 0⟩ ⟨3, 0⟩ = 1 :=
    metric_distance_eval _ _ 1 (by norm_num) (by norm_num)
  norm_num [normalized_path_lengths, path_lengths, plAux, uniPts, uniTs, hd1, hd2, hd3]

theorem aMat_lineTs : (uOf lineTs 4).transpose * uOf lineTs 4 =
    !![451538138/387420489, 650582/531441, 693842/531441, 346/243;
       650582/531441, 693842/531441, 346/243, 1178/729;
       693842/531441, 346/243, 1178/729, 2;
       346/243, 1178/729, 2, 4] := by
  ext i j
  fin_cases i <;> fin_cases j <;>
    norm_num [Matrix.mul_apply, Matrix.transpose_apply, uOf, lineTs, Fin.sum_univ_four,
      show ((3 : Fin 4) : ℕ) = 3 from rfl]

theorem aMat_uniTs : (uOf uniTs 4).transpose * uOf uniTs 4 =
    !![794/729, 92/81, 98/81, 4/3;
       92/81, 98/81, 4/3, 14/9;
       98/81, 4/3, 14/9, 2;
       4/3, 14/9, 2, 4] := by
  ext i j
  fin_cases i <;> fin_cases j <;>
    norm_num [Matrix.mul_apply, Matrix.transpose_apply, uOf, uniTs, Fin.sum_univ_four,
      show ((3 : Fin 4) : ℕ) = 3 from rfl]

theorem det_ok_lineTs :
    ¬ |((uOf lineTs linePts.length).transpose * uOf lineTs linePts.length).det| < solveEps := by
  show ¬ |((uOf lineTs 4).transpose * uOf lineTs 4).det| < solveEps
  rw [aMat_lineTs, det4_expansion]
  intro hlt
  have hX := lt_of_le_of_lt (le_abs_self _) hlt
  rw [solveEps] at hX
  norm_num at hX

theorem det_ok_uniTs :
    ¬ |((uOf uniTs uniPts.length).transpose * uOf uniTs uniPts.length).det| < solveEps := by
  show ¬ |((uOf uniTs 4).transpose * uOf uniTs 4).det| < solveEps
  rw [aMat_uniTs, det4_expansion]
  intro hlt
  have hX := lt_of_le_of_lt (le_abs_self _) hlt
  rw [solveEps] at hX
  norm_num at hX

/-- Claim C9 as stated (best_fit reproduces the control points of any cubic
whose points were sampled at *arbitrary* parameter values) is false: the
points `linePts` lie exactly on the cubic `cCubic` at parameters
0, 1/3, 2/3, 1, yet `best_fit` — which re-parameterizes by normalized chord
length — returns the control points of the uniform line `cLine`, whose
second control point (1,0) differs from `cCubic`'s (0,0) by a full unit,
far beyond any floating-point tolerance. -/
theorem claim9_counterexample :
    (∀ i, i < linePts.length →
      linePts.getD i default = bezierPoint cCubic (([0, 1/3, 2/3, 1] : List ℚ).getD i 0)) ∧
    best_fit (fun _ => none) linePts = some (ctrlVec cLine) ∧
    ctrlVec cLine 1 ≠ ctrlVec cCubic 1 := by
  refine ⟨?_, ?_, ?_⟩
  · intro i hi
    have hi4 : i < 4 := hi
    interval_cases i <;>
      norm_num [linePts, cCubic, bezierPoint, cubicBezier, Vec2.mk.injEq]
  · apply best_fit_reproduces (fun _ => none) linePts lineTs cLine npl_linePts ?_ det_ok_lineTs
    intro i hi
    have hi4 : i < 4 := hi
    interval_cases i <;>
      norm_num [linePts, lineTs, cLine, bezierPoint, cubicBezier, Vec2.mk.injEq]
  · intro habs
    have hx := congrArg Vec2.x habs
    norm_num [ctrlVec, cLine, cCubic] at hx

/-- Claim C9, amended: for every set of points sampled exactly on a known
cubic Bezier curve at parameter values that coincide with the fitter's own
normalized arc-length parameterization, and whose normal-equations matrix
passes the `1e-10` determinant test, `best_fit` reproduces the original four
control points exactly (in the exact-arithmetic model; the restriction to
arc-length-compatible parameters is forced by `claim9_counterexample`). -/
theorem claim9_amended_fit_roundtrip (pinv : Mat4 → Option Mat4) (points : List Vec2)
    (ts : List ℚ) (c : BezierCurve)
    (hnpl : normalized_path_lengths points = some ts)
    (hsample : ∀ i, i < points.length → points.getD i default = bezierPoint c (ts.getD i 0))
    (hdet : ¬ |((uOf ts points.length).transpose * uOf ts points.length).det| < solveEps) :
    best_fit pinv points = some (ctrlVec c) :=
  best_fit_reproduces pinv points ts c hnpl hsample hdet

theorem claim9_witness : best_fit (fun _ => none) uniPts = some (ctrlVec cLine) := by
  apply claim9_amended_fit_roundtrip (fun _ => none) uniPts uniTs cLine npl_uniPts ?_
    det_ok_uniTs
  intro i hi
  have hi4 : i < 4 := hi
  interval_cases i <;>
    norm_num [uniPts, uniTs, cLine, bezierPoint, cubicBezier, Vec2.mk.injEq]
